import Mathlib

/-!
Verification of the TLS connector core of the rquest2 repository.

The definitions below are a shallow embedding of the Rust sources:
  * src/src/tls/connector/mod.rs        (HttpsConnector, Inner::setup_ssl,
                                         MaybeHttpsStream, HttpsLayerSettings)
  * src/src/tls/impersonate/chrome/v117.rs
  * src/src/tls/impersonate/safari/safari_ios_17_4_1.rs
The session cache (src/src/tls/connector/cache.rs) is not part of the staged
sources; it is modelled from the specification, as marked on its definitions.

Machine integers are modelled as `Nat` with explicit bounds where the Rust
code relies on checked arithmetic.  Async control flow is modelled by explicit
event traces: each function returns the ordered list of observable actions it
performed together with its result.
-/

/-! ### The IPv6 address parser of Rust `core::net::parser`

The bracket-stripping logic of `HttpsConnector::call` relies on
`host.parse::<net::Ipv6Addr>().is_ok()`.  The functions below port the parser
from Rust's core library, which is what `str::parse::<Ipv6Addr>` executes:
number reading with checked arithmetic and digit caps, embedded trailing IPv4
addresses, and the `::` abbreviation.  Backtracking (`read_atomically`) is
modelled by returning `none` without consuming input. -/

/-- Port of Rust `char::to_digit(radix)`: the value of `c` as a digit in base
`radix` (ASCII digits and letters), or `none`. -/
def char_to_digit (radix : Nat) (c : Char) : Option Nat :=
  let d :=
    if '0' ≤ c ∧ c ≤ '9' then some (c.toNat - '0'.toNat)
    else if 'a' ≤ c ∧ c ≤ 'z' then some (c.toNat - 'a'.toNat + 10)
    else if 'A' ≤ c ∧ c ≤ 'Z' then some (c.toNat - 'A'.toNat + 10)
    else none
  match d with
  | some v => if v < radix then some v else none
  | none => none

/-- The digit loop of Rust `Parser::read_number`.  `bound` is the maximum of
the numeric type (65535 for the `u16` groups, 255 for `u8` IPv4 octets), so
`bound < acc'` models `checked_mul`/`checked_add` returning `None`; exceeding
`max_digits` likewise aborts the whole read.  Returns the value, the number of
digits read and the remaining input. -/
def read_number_loop (radix bound : Nat) (max_digits : Option Nat) :
    List Char → Nat → Nat → Option (Nat × Nat × List Char)
  | [], acc, count => some (acc, count, [])
  | c :: rest, acc, count =>
    match char_to_digit radix c with
    | none => some (acc, count, c :: rest)
    | some d =>
      let acc' := acc * radix + d
      if bound < acc' then none
      else
        match max_digits with
        | some m =>
          if m < count + 1 then none
          else read_number_loop radix bound max_digits rest acc' (count + 1)
        | none => read_number_loop radix bound max_digits rest acc' (count + 1)

/-- Port of Rust `Parser::read_number`: reads at least one digit in `radix`,
rejecting a redundant leading zero unless `allow_zero_start`. -/
def read_number (radix bound : Nat) (max_digits : Option Nat)
    (allow_zero_start : Bool) (s : List Char) : Option (Nat × List Char) :=
  match read_number_loop radix bound max_digits s 0 0 with
  | none => none
  | some (acc, count, rest) =>
    if count = 0 then none
    else if allow_zero_start = false ∧ s.head? = some '0' ∧ 1 < count then none
    else some (acc, rest)

/-- Port of Rust `Parser::read_separator`: at every position but the first, a
`sep` character must precede the inner read; failure consumes nothing. -/
def read_separator {α : Type} (sep : Char) (first : Bool)
    (inner : List Char → Option (α × List Char)) (s : List Char) :
    Option (α × List Char) :=
  if first then inner s
  else
    match s with
    | c :: rest => if c = sep then inner rest else none
    | [] => none

/-- Port of Rust `Parser::read_ipv4_addr`: four decimal octets (at most three
digits each, no leading zeros, value at most 255) separated by dots. -/
def read_ipv4_addr (s : List Char) : Option ((Nat × Nat × Nat × Nat) × List Char) := do
  let (a, s) ← read_number 10 255 (some 3) false s
  let (b, s) ← read_separator '.' false (read_number 10 255 (some 3) false) s
  let (c, s) ← read_separator '.' false (read_number 10 255 (some 3) false) s
  let (d, s) ← read_separator '.' false (read_number 10 255 (some 3) false) s
  pure ((a, b, c, d), s)

/-- Port of the `read_groups` helper inside Rust `Parser::read_ipv6_addr`:
reads up to `remaining` colon-separated 16-bit hex groups, allowing a trailing
embedded IPv4 address when at least two slots are left.  Returns the groups,
whether an embedded IPv4 address was read, and the remaining input. -/
def read_groups : Nat → Bool → List Char → List Nat × Bool × List Char
  | 0, _, s => ([], false, s)
  | remaining + 1, first, s =>
    let v4 := if 1 ≤ remaining then read_separator ':' first read_ipv4_addr s else none
    match v4 with
    | some ((a, b, c, d), rest) => ([a * 256 + b, c * 256 + d], true, rest)
    | none =>
      match read_separator ':' first (read_number 16 65535 (some 4) true) s with
      | some (g, rest) =>
        match read_groups remaining false rest with
        | (gs, sawV4, rest2) => (g :: gs, sawV4, rest2)
      | none => ([], false, s)

/-- Port of Rust `Parser::read_ipv6_addr`: a full 8-group address, or a head,
a `::` abbreviation standing for one or more zero groups, and a tail of at
most `8 - head - 1` groups.  An embedded IPv4 part is only allowed at the
tail end. -/
def read_ipv6_addr (s : List Char) : Option (List Nat × List Char) :=
  match read_groups 8 true s with
  | (head, head_ipv4, rest) =>
    if head.length = 8 then some (head, rest)
    else if head_ipv4 then none
    else
      match rest with
      | ':' :: ':' :: rest2 =>
        match read_groups (8 - (head.length + 1)) true rest2 with
        | (tail, _, rest3) =>
          some (head ++ List.replicate (8 - head.length - tail.length) 0 ++ tail, rest3)
      | _ => none

/-- Rust `host.parse::<net::Ipv6Addr>().is_ok()`: the parse succeeds iff
`read_ipv6_addr` succeeds and consumes the entire input. -/
def is_ipv6 (cs : List Char) : Bool :=
  match read_ipv6_addr cs with
  | some (_, []) => true
  | _ => false

/-! ### Host normalization (HttpsConnector::call, mod.rs lines 297-309)

The Rust code:
```
if !host.is_empty() {
    let last = host.len() - 1;
    let mut chars = host.chars();
    if let (Some('['), Some(']')) = (chars.next(), chars.last()) {
        if host[1..last].parse::<net::Ipv6Addr>().is_ok() {
            host = &host[1..last];
        }
    }
}
```
`chars.next()` is the first character and `chars.last()` the last character of
the remainder; since both compared characters are one byte, the byte slice
`host[1..last]` is exactly the character list without its first and last
elements. -/

/-- The bracket-stripping block of `HttpsConnector::call`. -/
def normalize_host (host : String) : String :=
  match host.data with
  | [] => host
  | c :: rest =>
    match rest.getLast? with
    | none => host
    | some lastc =>
      if c = '[' ∧ lastc = ']' ∧ is_ipv6 rest.dropLast then String.mk rest.dropLast
      else host

/-- The claim's wording of the same transformation: the brackets are stripped
exactly when the host begins with `[`, ends with `]`, and the interior parses
as an IPv6 address. -/
def spec_normalize_host (host : String) : String :=
  let cs := host.data
  if cs.head? = some '[' ∧ cs.getLast? = some ']' ∧ is_ipv6 ((cs.drop 1).dropLast) then
    String.mk ((cs.drop 1).dropLast)
  else host

/-! ### The session cache

The cache implementation (src/src/tls/connector/cache.rs) is declared by
`mod cache;` and used through `SessionCache::with_capacity`, `get` and
`insert`, but its file is not among the staged sources, so it is modelled
from the specification here.  Sessions are abstract handles, modelled as
natural numbers. -/

/-- Key of the session cache (connector/mod.rs lines 55-58): the host string
and the URI port, defaulting to 443. -/
structure SessionKey where
  host : String
  port : Nat
deriving DecidableEq, Repr

/-- TLS session handles are opaque; only identity matters to the cache. -/
abbrev Session := Nat

/-- Association list from keys to per-key queues; the front of a queue is the
oldest session. -/
abbrev CacheEntries := List (SessionKey × List Session)

/-- The queue stored for `k` (empty when `k` is absent). -/
def findQ : CacheEntries → SessionKey → List Session
  | [], _ => []
  | (k', q) :: rest, k => if k' = k then q else findQ rest k

/-- Replace the queue stored for `k` (appending an entry when absent). -/
def updateQ : CacheEntries → SessionKey → List Session → CacheEntries
  | [], k, q => [(k, q)]
  | (k', q') :: rest, k, q =>
    if k' = k then (k, q) :: rest else (k', q') :: updateQ rest k q

/-- Modelled from the spec: the session cache is a bounded mapping from
`SessionKey` to a FIFO queue of up to `capacity` TLS session handles
(src/src/tls/connector/cache.rs is not among the staged sources). -/
structure SessionCache where
  capacity : Nat
  entries : CacheEntries
deriving DecidableEq

/-- Modelled from the spec: append a session at the young end of a queue; on
insert past capacity the oldest (front) entry is evicted. -/
def bounded_push (capacity : Nat) (q : List Session) (s : Session) : List Session :=
  if capacity < (q ++ [s]).length then (q ++ [s]).tail else q ++ [s]

/-- Modelled from the spec: `insert(key, session)` appends to the key's FIFO
queue, evicting the oldest entry past capacity. -/
def SessionCache.insert (c : SessionCache) (k : SessionKey) (s : Session) :
    SessionCache :=
  ⟨c.capacity, updateQ c.entries k (bounded_push c.capacity (findQ c.entries k) s)⟩

/-- Modelled from the spec: `get(key)` (the spec's `take`) returns and removes
the most recently inserted session for the key; sessions are single-use. -/
def SessionCache.get (c : SessionCache) (k : SessionKey) :
    Option Session × SessionCache :=
  let q := findQ c.entries k
  match q.getLast? with
  | none => (none, c)
  | some s => (some s, ⟨c.capacity, updateQ c.entries k q.dropLast⟩)

/-- Every session held anywhere in the cache entries. -/
def allSessions : CacheEntries → List Session
  | [] => []
  | (_, q) :: rest => q ++ allSessions rest

/-- Every session held outside the first entry for `k`. -/
def allExcept : CacheEntries → SessionKey → List Session
  | [], _ => []
  | (k', q) :: rest, k =>
    if k' = k then allSessions rest else q ++ allExcept rest k

/-- Every stored queue respects the capacity bound. -/
def cacheBounded (c : SessionCache) : Bool :=
  c.entries.all fun e => decide (e.2.length ≤ c.capacity)

/-- An abstract cache operation, used to state properties over arbitrary
later operation sequences. -/
inductive CacheOp where
  | insert (k : SessionKey) (s : Session)
  | take (k : SessionKey)
deriving DecidableEq

/-- Run a sequence of cache operations, collecting the result of each take. -/
def runOps : SessionCache → List CacheOp → SessionCache × List (Option Session)
  | c, [] => (c, [])
  | c, CacheOp.insert k s :: ops => runOps (c.insert k s) ops
  | c, CacheOp.take k :: ops =>
    match c.get k with
    | (r, c') =>
      match runOps c' ops with
      | (cf, rs) => (cf, r :: rs)

/-- Insert a list of sessions at one key, oldest first. -/
def insertAll (c : SessionCache) (k : SessionKey) : List Session → SessionCache
  | [] => c
  | s :: ss => insertAll (c.insert k s) k ss

/-! ### HttpsLayerSettings (connector/mod.rs lines 88-107) -/

/-- Settings for `HttpsLayer` (connector/mod.rs lines 88-91). -/
structure HttpsLayerSettings where
  session_cache_capacity : Nat
  session_cache : Bool
deriving DecidableEq

/-- The `Default` impl for `HttpsLayerSettings` (connector/mod.rs
lines 100-107): capacity 8, caching enabled. -/
def HttpsLayerSettings.default : HttpsLayerSettings :=
  { session_cache_capacity := 8, session_cache := true }

/-! ### URIs and the connector

A `hyper::Uri` is modelled by the three accessors the connector reads:
`scheme` (already lowercased by the `http` crate's parser), `host` and
`port_u16`. -/

/-- The parts of a `hyper::Uri` read by `HttpsConnector::call` and
`Inner::setup_ssl`. -/
structure Uri where
  scheme : Option String
  host : Option String
  port : Option Nat
deriving DecidableEq

/-- The TLS-scheme test of `HttpsConnector::call` (mod.rs lines 274-277):
scheme is `https` or `wss`, absent scheme counts as false. -/
def is_tls_scheme (uri : Uri) : Bool :=
  (uri.scheme.map fun s => s == "https" || s == "wss").getD false

/-- The session key built by `Inner::setup_ssl` (mod.rs lines 55-58):
`port_u16().unwrap_or(443)`. -/
def session_key_for (uri : Uri) (host : String) : SessionKey :=
  ⟨host, uri.port.getD 443⟩

/-- Observable actions of a connector call, in execution order. -/
inductive ConnEvent where
  | transportCall
  | confCallback
  | cacheGet (key : SessionKey) (hit : Bool)
  | setSession
  | setExData (key : SessionKey)
  | intoSsl (host : String)
  | sslCallback
  | handshake
deriving DecidableEq

/-- The state of `Inner` (connector/mod.rs lines 36-42; named `ConnectorInner` here since Mathlib takes `Inner`), with the SSL context
and the user callbacks abstracted to their observable outcomes: `configure_ok`
is whether `self.ssl.configure()` succeeds, `callback`/`ssl_callback` are
`none` when unregistered and otherwise carry whether the callback returns
`Ok`, and `set_session_ok`/`into_ssl_ok` are the outcomes of
`conf.set_session` and `conf.into_ssl`. -/
structure ConnectorInner where
  configure_ok : Bool
  callback : Option Bool
  ssl_callback : Option Bool
  cache : Option SessionCache
  set_session_ok : Bool
  into_ssl_ok : Bool
deriving DecidableEq

/-- Model of `Inner::setup_ssl` (connector/mod.rs lines 48-78), returning the
trace of observable actions, the result, and the cache after the lookup.  The
source order is: `configure`, the configuration callback, building the
`SessionKey`, the cache lookup (with `set_session` on a hit), `set_ex_data`,
`into_ssl`, and finally the ssl callback. -/
def ConnectorInner.setup_ssl (inner : ConnectorInner) (uri : Uri) (host : String) :
    List ConnEvent × Except String Unit × Option SessionCache :=
  if inner.configure_ok = false then
    ([], .error "configure failed", inner.cache)
  else if inner.callback = some false then
    ([.confCallback], .error "callback failed", inner.cache)
  else
    let t0 : List ConnEvent := if inner.callback.isSome then [.confCallback] else []
    let key := session_key_for uri host
    let consult : List ConnEvent × Bool × Option SessionCache :=
      match inner.cache with
      | none => ([], true, none)
      | some cache =>
        match cache.get key with
        | (none, cache') => ([.cacheGet key false], true, some cache')
        | (some _, cache') =>
          ([.cacheGet key true, .setSession], inner.set_session_ok, some cache')
    match consult with
    | (t1, sessOk, cache') =>
      if sessOk = false then
        (t0 ++ t1, .error "set_session failed", cache')
      else
        let t2 := t0 ++ t1 ++ [.setExData key, .intoSsl host]
        if inner.into_ssl_ok = false then
          (t2, .error "into_ssl failed", cache')
        else if inner.ssl_callback = some false then
          (t2 ++ [.sslCallback], .error "ssl callback failed", cache')
        else
          (t2 ++ (if inner.ssl_callback.isSome then [.sslCallback] else []),
           .ok (), cache')

/-- A TLS stream as produced by the handshake, carrying the underlying
transport stream and the ALPN protocol the engine selected
(`ssl().selected_alpn_protocol()`, bytes modelled as a string). -/
structure SslStream (T : Type) where
  inner : T
  alpn : Option String
deriving DecidableEq

/-- A stream which may be wrapped with TLS (connector/mod.rs lines 324-329). -/
inductive MaybeHttpsStream (T : Type) where
  | Http : T → MaybeHttpsStream T
  | Https : SslStream T → MaybeHttpsStream T
deriving DecidableEq

/-- Model of `HttpsConnector::call` (connector/mod.rs lines 273-320).  The
plaintext transport is injected as its outcome `transport`; note the source
invokes `self.http.call(uri)` before the returned future runs, and awaits the
connection before the TLS branch looks at the host.  `handshake_ok` and
`alpn` abstract the outcome of `tokio_boring::SslStreamBuilder::connect`. -/
def connector_call {T : Type} (inner : ConnectorInner) (uri : Uri)
    (transport : Except String T) (handshake_ok : Bool) (alpn : Option String) :
    List ConnEvent × Except String (MaybeHttpsStream T) :=
  match transport with
  | .error e => ([.transportCall], .error e)
  | .ok conn =>
    if is_tls_scheme uri = false then
      ([.transportCall], .ok (.Http conn))
    else
      match uri.host with
      | none => ([.transportCall], .error "URI missing host")
      | some host0 =>
        let host := normalize_host host0
        match inner.setup_ssl uri host with
        | (t, .error e, _) => (.transportCall :: t, .error e)
        | (t, .ok _, _) =>
          if handshake_ok then
            (.transportCall :: (t ++ [.handshake]), .ok (.Https ⟨conn, alpn⟩))
          else
            (.transportCall :: (t ++ [.handshake]), .error "handshake failed")

/-! ### Connection metadata (connector/mod.rs lines 377-395) -/

/-- Model of `hyper::client::connect::Connected`: the `negotiated_h2` flag
plus the rest of the metadata, abstracted as a number. -/
structure Connected where
  h2 : Bool
  aux : Nat
deriving DecidableEq

/-- Model of `Connected::negotiated_h2`: sets the h2 flag. -/
def Connected.negotiated_h2 (c : Connected) : Connected := { c with h2 := true }

/-- The `Connection` impl for `MaybeHttpsStream` (mod.rs lines 377-395):
plaintext streams forward the underlying metadata; TLS streams mark h2 when
the selected ALPN protocol is the bytes of `h2`.  `conn_meta` is the
underlying transport's `connected()`. -/
def MaybeHttpsStream.connected {T : Type} (conn_meta : T → Connected) :
    MaybeHttpsStream T → Connected
  | .Http s => conn_meta s
  | .Https s =>
    let connected := conn_meta s.inner
    if s.alpn = some "h2" then connected.negotiated_h2 else connected

/-! ### Impersonation profile data (chrome/v117.rs, safari/safari_ios_17_4_1.rs)

Only the HTTP/2 frame settings and the header initializers are staged; the
TLS builder those files also construct lives outside the staged sources.  The
pass-through fields (`headers_priority`, `headers_pseudo_order`,
`settings_order`) keep abstract payload types. -/

/-- The `Http2FrameSettings` struct as populated by the profiles. -/
structure Http2FrameSettings (P O S : Type) where
  initial_stream_window_size : Option Nat
  initial_connection_window_size : Option Nat
  max_concurrent_streams : Option Nat
  max_header_list_size : Option Nat
  header_table_size : Option Nat
  enable_push : Option Bool
  headers_priority : Option P
  headers_pseudo_order : Option O
  settings_order : Option S

/-- The fields of `ImpersonateSettings` the staged profile files read into
`Http2FrameSettings`. -/
structure ImpersonateSettings (P O S : Type) where
  headers_priority : Option P
  headers_pseudo_order : Option O
  settings_order : Option S

/-- The `Http2FrameSettings` literal built by `get_settings` of
chrome/v117.rs (lines 17-27). -/
def chrome_v117_http2 {P O S : Type} (settings : ImpersonateSettings P O S) :
    Http2FrameSettings P O S :=
  { initial_stream_window_size := some 6291456
    initial_connection_window_size := some 15728640
    max_concurrent_streams := none
    max_header_list_size := some 262144
    header_table_size := some 65536
    enable_push := some false
    headers_priority := settings.headers_priority
    headers_pseudo_order := settings.headers_pseudo_order
    settings_order := settings.settings_order }

/-- The `Http2FrameSettings` literal built by `get_settings` of
safari/safari_ios_17_4_1.rs (lines 17-27). -/
def safari_ios_17_4_1_http2 {P O S : Type} (settings : ImpersonateSettings P O S) :
    Http2FrameSettings P O S :=
  { initial_stream_window_size := some 2097152
    initial_connection_window_size := some 10551295
    max_concurrent_streams := some 100
    max_header_list_size := none
    header_table_size := none
    enable_push := some false
    headers_priority := settings.headers_priority
    headers_pseudo_order := settings.headers_pseudo_order
    settings_order := settings.settings_order }

/-! ### Default headers (chrome/v117.rs lines 33-57)

A `http::HeaderMap` is modelled as a list of name-value pairs in iteration
order. -/

/-- Drop every entry named `n`. -/
def remove_all : List (String × String) → String → List (String × String)
  | [], _ => []
  | (n', v') :: rest, n =>
    if n' = n then remove_all rest n else (n', v') :: remove_all rest n

/-- Model of `http::HeaderMap::insert`: replaces the first entry with the
given name in place (keeping its position), dropping any further values of
that name; a new name is appended at the end. -/
def header_insert : List (String × String) → String → String → List (String × String)
  | [], n, v => [(n, v)]
  | (n', v') :: rest, n, v =>
    if n' = n then (n, v) :: remove_all rest n
    else (n', v') :: header_insert rest n v

/-- The `header_initializer` of chrome/v117.rs (lines 33-57): twelve inserts
in source order. -/
def chrome_v117_header_initializer (headers : List (String × String)) :
    List (String × String) :=
  let headers := header_insert headers "sec-ch-ua"
    "\"Google Chrome\";v=\"117\", \"Not;A=Brand\";v=\"8\", \"Chromium\";v=\"117\""
  let headers := header_insert headers "sec-ch-ua-mobile" "?0"
  let headers := header_insert headers "sec-ch-ua-platform" "\"Windows\""
  let headers := header_insert headers "upgrade-insecure-requests" "1"
  let headers := header_insert headers "user-agent"
    "Mozilla/5.0 (Windows NT 10.0; Win64; x64) AppleWebKit/537.36 (KHTML, like Gecko) Chrome/117.0.0.0 Safari/537.36"
  let headers := header_insert headers "accept"
    "text/html,application/xhtml+xml,application/xml;q=0.9,image/avif,image/webp,image/apng,*/*;q=0.8,application/signed-exchange;v=b3;q=0.7"
  let headers := header_insert headers "sec-fetch-site" "none"
  let headers := header_insert headers "sec-fetch-mode" "navigate"
  let headers := header_insert headers "sec-fetch-user" "?1"
  let headers := header_insert headers "sec-fetch-dest" "document"
  let headers := header_insert headers "accept-encoding" "gzip, deflate, br"
  let headers := header_insert headers "accept-language" "en-US,en;q=0.9"
  headers

/-- The twelve default Chrome 117 headers in the order the initializer
inserts them. -/
def chrome_v117_default_headers : List (String × String) :=
  [("sec-ch-ua",
    "\"Google Chrome\";v=\"117\", \"Not;A=Brand\";v=\"8\", \"Chromium\";v=\"117\""),
   ("sec-ch-ua-mobile", "?0"),
   ("sec-ch-ua-platform", "\"Windows\""),
   ("upgrade-insecure-requests", "1"),
   ("user-agent",
    "Mozilla/5.0 (Windows NT 10.0; Win64; x64) AppleWebKit/537.36 (KHTML, like Gecko) Chrome/117.0.0.0 Safari/537.36"),
   ("accept",
    "text/html,application/xhtml+xml,application/xml;q=0.9,image/avif,image/webp,image/apng,*/*;q=0.8,application/signed-exchange;v=b3;q=0.7"),
   ("sec-fetch-site", "none"),
   ("sec-fetch-mode", "navigate"),
   ("sec-fetch-user", "?1"),
   ("sec-fetch-dest", "document"),
   ("accept-encoding", "gzip, deflate, br"),
   ("accept-language", "en-US,en;q=0.9")]


/-! ### Event-order predicates

Boolean predicates over connector traces, used to state ordering claims. -/

/-- True for the configuration-callback event. -/
def is_conf_event : ConnEvent → Bool
  | .confCallback => true
  | _ => false

/-- True for the cache-consultation events (lookup and `set_session`). -/
def is_consult_event : ConnEvent → Bool
  | .cacheGet _ _ => true
  | .setSession => true
  | _ => false

/-- True for the ex-data attachment event. -/
def is_exdata_event : ConnEvent → Bool
  | .setExData _ => true
  | _ => false

/-- True for the raw-handle (ssl) callback event. -/
def is_sslcb_event : ConnEvent → Bool
  | .sslCallback => true
  | _ => false

/-- True for the key-bearing events: cache consultation and ex-data attach. -/
def is_key_cache_event (e : ConnEvent) : Bool :=
  is_consult_event e || is_exdata_event e

/-- True for either caller-registered callback event. -/
def is_callback_event (e : ConnEvent) : Bool :=
  is_conf_event e || is_sslcb_event e

/-- Every event satisfying `p` occurs strictly before every event satisfying
`q` in the trace. -/
def all_before (p q : ConnEvent → Bool) : List ConnEvent → Bool
  | [] => true
  | e :: rest =>
    (!(q e) || rest.all (fun x => !(p x))) && all_before p q rest

/-- The order the source's `setup_ssl` actually follows: the configuration
callback before the cache consultation, both before the ex-data attach, and
the ssl callback after all of them. -/
def ordered_trace (t : List ConnEvent) : Bool :=
  all_before is_conf_event is_consult_event t &&
  all_before is_conf_event is_exdata_event t &&
  all_before is_consult_event is_exdata_event t &&
  all_before is_conf_event is_sslcb_event t &&
  all_before is_consult_event is_sslcb_event t &&
  all_before is_exdata_event is_sslcb_event t

/-! ### Helper lemmas about the session cache -/

theorem mem_of_getLast_opt {l : List Session} {a : Session}
    (h : l.getLast? = some a) : a ∈ l := by
  obtain ⟨hne, rfl⟩ := List.mem_getLast?_eq_getLast (by simp [h] : a ∈ l.getLast?)
  exact List.getLast_mem hne

theorem findQ_updateQ_self (e : CacheEntries) (k : SessionKey) (q : List Session) :
    findQ (updateQ e k q) k = q := by
  induction e with
  | nil => simp [updateQ, findQ]
  | cons hd tl ih =>
    obtain ⟨k', q'⟩ := hd
    by_cases h : k' = k <;> simp [updateQ, findQ, h, ih]

theorem allExcept_updateQ (e : CacheEntries) (k : SessionKey) (q : List Session) :
    allExcept (updateQ e k q) k = allExcept e k := by
  induction e with
  | nil => simp [updateQ, allExcept, allSessions]
  | cons hd tl ih =>
    obtain ⟨k', q'⟩ := hd
    by_cases h : k' = k <;> simp [updateQ, allExcept, h, ih]

theorem mem_allSessions_updateQ {s : Session} {e : CacheEntries} {k : SessionKey}
    {q : List Session} (h : s ∈ allSessions (updateQ e k q)) :
    s ∈ q ∨ s ∈ allExcept e k := by
  induction e with
  | nil => simp [updateQ, allSessions, allExcept] at h ⊢; exact h
  | cons hd tl ih =>
    obtain ⟨k', q'⟩ := hd
    by_cases hk : k' = k
    · subst hk
      simp only [updateQ, if_pos rfl, allSessions, List.mem_append] at h
      simpa [allExcept] using h
    · simp only [updateQ, hk, if_neg hk, allSessions, List.mem_append] at h
      rcases h with h | h
      · exact Or.inr (by simp [allExcept, hk, h])
      · rcases ih h with h' | h'
        · exact Or.inl h'
        · exact Or.inr (by simp [allExcept, hk, h'])

theorem mem_allExcept {s : Session} {e : CacheEntries} {k : SessionKey}
    (h : s ∈ allExcept e k) : s ∈ allSessions e := by
  induction e with
  | nil => simp [allExcept] at h
  | cons hd tl ih =>
    obtain ⟨k', q'⟩ := hd
    by_cases hk : k' = k
    · subst hk
      simp [allExcept] at h
      simp [allSessions, h]
    · simp only [allExcept, hk, if_neg hk] at h
      rcases List.mem_append.mp h with h | h
      · simp [allSessions, h]
      · simp [allSessions, ih h]

theorem mem_findQ {s : Session} {e : CacheEntries} {k : SessionKey}
    (h : s ∈ findQ e k) : s ∈ allSessions e := by
  induction e with
  | nil => simp [findQ] at h
  | cons hd tl ih =>
    obtain ⟨k', q'⟩ := hd
    by_cases hk : k' = k
    · subst hk
      simp [findQ] at h
      simp [allSessions, h]
    · simp only [findQ, hk, if_neg hk] at h
      simp [allSessions, ih h]

theorem mem_allSessions_split {s : Session} {e : CacheEntries} (k : SessionKey)
    (h : s ∈ allSessions e) : s ∈ findQ e k ∨ s ∈ allExcept e k := by
  induction e with
  | nil => simp [allSessions] at h
  | cons hd tl ih =>
    obtain ⟨k', q'⟩ := hd
    simp only [allSessions, List.mem_append] at h
    by_cases hk : k' = k
    · subst hk
      rcases h with h | h
      · exact Or.inl (by simp [findQ, h])
      · exact Or.inr (by simp [allExcept, h])
    · rcases h with h | h
      · exact Or.inr (by simp [allExcept, hk, h])
      · rcases ih h with h' | h'
        · exact Or.inl (by simp [findQ, hk, h'])
        · exact Or.inr (by simp [allExcept, hk, h'])

theorem bounded_push_length_le {cap : Nat} {q : List Session}
    (h : q.length ≤ cap) (s : Session) : (bounded_push cap q s).length ≤ cap := by
  unfold bounded_push
  by_cases hc : cap < (q ++ [s]).length
  · rw [if_pos hc, List.length_tail]
    simp at hc ⊢
    omega
  · rw [if_neg hc]
    simp at hc ⊢
    omega

theorem updateQ_all {p : SessionKey × List Session → Bool} {e : CacheEntries}
    (h : e.all p = true) {k : SessionKey} {q : List Session}
    (hq : p (k, q) = true) : (updateQ e k q).all p = true := by
  induction e with
  | nil => simp [updateQ, hq]
  | cons hd tl ih =>
    obtain ⟨k', q'⟩ := hd
    simp only [List.all_cons, Bool.and_eq_true] at h
    by_cases hk : k' = k <;>
      simp [updateQ, hk, hq, h.1, h.2, ih h.2]

theorem cacheBounded_findQ {c : SessionCache} (h : cacheBounded c = true)
    (k : SessionKey) : (findQ c.entries k).length ≤ c.capacity := by
  obtain ⟨cap, e⟩ := c
  simp only [cacheBounded] at h
  induction e with
  | nil => simp [findQ]
  | cons hd tl ih =>
    obtain ⟨k', q'⟩ := hd
    simp only [List.all_cons, Bool.and_eq_true, decide_eq_true_eq] at h
    by_cases hk : k' = k
    · simpa [findQ, hk] using h.1
    · simp only [findQ, hk, if_neg hk]
      exact ih (by simpa using h.2)

theorem cacheBounded_insert {c : SessionCache} (h : cacheBounded c = true)
    (k : SessionKey) (s : Session) : cacheBounded (c.insert k s) = true := by
  have hlen := bounded_push_length_le (cacheBounded_findQ h k) s
  obtain ⟨cap, e⟩ := c
  simp only [cacheBounded, SessionCache.insert] at h ⊢
  exact updateQ_all h (by simpa using hlen)

theorem cacheBounded_get {c : SessionCache} (h : cacheBounded c = true)
    (k : SessionKey) : cacheBounded (c.get k).2 = true := by
  have hq := cacheBounded_findQ h k
  obtain ⟨cap, e⟩ := c
  simp only [SessionCache.get]
  rcases hg : (findQ e k).getLast? with _ | s
  · simpa [hg] using h
  · simp only [hg]
    simp only [cacheBounded] at h ⊢
    refine updateQ_all h ?_
    simp only [decide_eq_true_eq]
    have := List.length_dropLast (findQ e k)
    simp at hq ⊢
    omega

theorem cacheBounded_runOps {c : SessionCache} (h : cacheBounded c = true)
    (ops : List CacheOp) : cacheBounded (runOps c ops).1 = true := by
  induction ops generalizing c with
  | nil => simpa [runOps]
  | cons op rest ih =>
    cases op with
    | insert k s => exact ih (cacheBounded_insert h k s)
    | take k =>
      simp only [runOps]
      have hb2 : cacheBounded (c.get k).2 = true := cacheBounded_get h k
      rcases hg : c.get k with ⟨r, c2⟩
      rw [hg] at hb2
      have := ih hb2
      rcases hr : runOps c2 rest with ⟨cf, rs⟩
      rw [hr] at this
      simpa using this

theorem suffix_append_right {α : Type} {l1 l2 : List α} (l : List α)
    (h : l1 <:+ l2) : l1 ++ l <:+ l2 ++ l := by
  obtain ⟨p, hp⟩ := h
  exact ⟨p, by rw [← hp, List.append_assoc]⟩

theorem bounded_push_suffix {cap : Nat} {q t : List Session} (h : q <:+ t)
    (s : Session) : bounded_push cap q s <:+ t ++ [s] := by
  unfold bounded_push
  by_cases hc : cap < (q ++ [s]).length
  · rw [if_pos hc]
    exact (List.tail_suffix (q ++ [s])).trans (suffix_append_right [s] h)
  · rw [if_neg hc]
    exact suffix_append_right [s] h

theorem foldl_bounded_push_suffix (cap : Nat) (q : List Session)
    (l : List Session) : List.foldl (bounded_push cap) q l <:+ q ++ l := by
  induction l generalizing q with
  | nil => simp
  | cons x xs ih =>
    calc List.foldl (bounded_push cap) q (x :: xs)
        = List.foldl (bounded_push cap) (bounded_push cap q x) xs := rfl
      _ <:+ bounded_push cap q x ++ xs := ih _
      _ <:+ (q ++ [x]) ++ xs := suffix_append_right xs (bounded_push_suffix (List.suffix_refl q) x)
      _ = q ++ (x :: xs) := by simp

theorem bounded_push_length_eq {cap : Nat} {q : List Session}
    (h : q.length ≤ cap) (s : Session) :
    (bounded_push cap q s).length = min cap (q.length + 1) := by
  unfold bounded_push
  by_cases hc : cap < (q ++ [s]).length
  · rw [if_pos hc, List.length_tail]
    simp at hc ⊢
    omega
  · rw [if_neg hc]
    simp at hc ⊢
    omega

theorem foldl_bounded_push_length {cap : Nat} {q : List Session}
    (h : q.length ≤ cap) (l : List Session) :
    (List.foldl (bounded_push cap) q l).length = min cap (q.length + l.length) := by
  induction l generalizing q with
  | nil => simp; omega
  | cons x xs ih =>
    have h1 : (bounded_push cap q x).length = min cap (q.length + 1) :=
      bounded_push_length_eq h x
    have h2 : (bounded_push cap q x).length ≤ cap := by omega
    calc (List.foldl (bounded_push cap) q (x :: xs)).length
        = (List.foldl (bounded_push cap) (bounded_push cap q x) xs).length := rfl
      _ = min cap ((bounded_push cap q x).length + xs.length) := ih h2
      _ = min cap (q.length + (x :: xs).length) := by simp [h1]; omega

theorem suffix_eq_of_length {α : Type} {l1 l2 t : List α} (h1 : l1 <:+ t)
    (h2 : l2 <:+ t) (h : l1.length = l2.length) : l1 = l2 := by
  rw [List.suffix_iff_eq_drop] at h1 h2
  rw [h1, h2, h]

theorem mem_insert_entries {c : SessionCache} {k : SessionKey} {s s' : Session}
    (h : s' ∈ allSessions (c.insert k s).entries) :
    s' = s ∨ s' ∈ allSessions c.entries := by
  obtain ⟨cap, e⟩ := c
  rcases mem_allSessions_updateQ h with h' | h'
  · have : s' ∈ findQ e k ++ [s] := by
      rcases (bounded_push_suffix (List.suffix_refl (findQ e k)) s).subset h' with h''
      exact h''
    rcases List.mem_append.mp this with h'' | h''
    · exact Or.inr (mem_findQ h'')
    · simp at h''
      exact Or.inl h''
  · exact Or.inr (mem_allExcept h')

theorem mem_get_entries {c : SessionCache} {k : SessionKey} {s' : Session}
    (h : s' ∈ allSessions ((c.get k).2).entries) : s' ∈ allSessions c.entries := by
  obtain ⟨cap, e⟩ := c
  simp only [SessionCache.get] at h
  rcases hg : (findQ e k).getLast? with _ | s
  · rw [hg] at h
    simpa using h
  · rw [hg] at h
    simp only at h
    rcases mem_allSessions_updateQ h with h' | h'
    · exact mem_findQ (List.dropLast_subset _ h')
    · exact mem_allExcept h'

theorem get_result_mem {c : SessionCache} {k : SessionKey} {s : Session}
    (h : (c.get k).1 = some s) : s ∈ allSessions c.entries := by
  obtain ⟨cap, e⟩ := c
  simp only [SessionCache.get] at h
  rcases hg : (findQ e k).getLast? with _ | s'
  · rw [hg] at h; simp at h
  · rw [hg] at h
    simp at h
    subst h
    exact mem_findQ (mem_of_getLast_opt hg)

theorem runOps_no_session {s0 : Session} {c : SessionCache}
    (hc : s0 ∉ allSessions c.entries) (ops : List CacheOp)
    (hops : ∀ k s, CacheOp.insert k s ∈ ops → s ≠ s0) :
    (∀ r ∈ (runOps c ops).2, r ≠ some s0) ∧
      s0 ∉ allSessions (runOps c ops).1.entries := by
  induction ops generalizing c with
  | nil => exact ⟨by simp [runOps], by simpa [runOps] using hc⟩
  | cons op rest ih =>
    cases op with
    | insert k s =>
      have hs : s ≠ s0 := hops k s (by simp)
      have hc' : s0 ∉ allSessions (c.insert k s).entries := by
        intro hmem
        rcases mem_insert_entries hmem with h | h
        · exact hs h.symm
        · exact hc h
      have := ih hc' (fun k' s' hm => hops k' s' (by simp [hm]))
      simpa [runOps] using this
    | take k =>
      simp only [runOps]
      have hres : (c.get k).1 ≠ some s0 := fun h => hc (get_result_mem h)
      have hc' : s0 ∉ allSessions ((c.get k).2).entries :=
        fun h => hc (mem_get_entries h)
      rcases hg : c.get k with ⟨r, c2⟩
      rw [hg] at hres hc'
      have hrest := ih hc' (fun k' s' hm => hops k' s' (by simp [hm]))
      rcases hr : runOps c2 rest with ⟨cf, rs⟩
      rw [hr] at hrest
      constructor
      · intro x hx
        simp at hx
        rcases hx with rfl | hx
        · exact hres
        · exact hrest.1 x hx
      · exact hrest.2

theorem insertAll_capacity (c : SessionCache) (k : SessionKey)
    (l : List Session) : (insertAll c k l).capacity = c.capacity := by
  induction l generalizing c with
  | nil => rfl
  | cons s ss ih => simpa [insertAll] using ih (c.insert k s)

theorem insertAll_findQ (c : SessionCache) (k : SessionKey) (l : List Session) :
    findQ (insertAll c k l).entries k =
      List.foldl (bounded_push c.capacity) (findQ c.entries k) l := by
  induction l generalizing c with
  | nil => rfl
  | cons s ss ih =>
    calc findQ (insertAll (c.insert k s) k ss).entries k
        = List.foldl (bounded_push (c.insert k s).capacity)
            (findQ (c.insert k s).entries k) ss := ih _
      _ = List.foldl (bounded_push c.capacity)
            (bounded_push c.capacity (findQ c.entries k) s) ss := by
          simp [SessionCache.insert, findQ_updateQ_self]
      _ = List.foldl (bounded_push c.capacity) (findQ c.entries k) (s :: ss) := rfl

theorem insertAll_allExcept (c : SessionCache) (k : SessionKey)
    (l : List Session) :
    allExcept (insertAll c k l).entries k = allExcept c.entries k := by
  induction l generalizing c with
  | nil => rfl
  | cons s ss ih =>
    calc allExcept (insertAll (c.insert k s) k ss).entries k
        = allExcept (c.insert k s).entries k := ih _
      _ = allExcept c.entries k := by simp [SessionCache.insert, allExcept_updateQ]

theorem mem_insertAll {c : SessionCache} {k : SessionKey} {l : List Session}
    {s : Session} (h : s ∈ allSessions (insertAll c k l).entries) :
    s ∈ findQ (insertAll c k l).entries k ∨ s ∈ allExcept c.entries k := by
  induction l generalizing c with
  | nil => exact mem_allSessions_split k h
  | cons x xs ih =>
    rcases ih (c := c.insert k x) h with h' | h'
    · exact Or.inl h'
    · right
      rw [← allExcept_updateQ c.entries k
        (bounded_push c.capacity (findQ c.entries k) x)]
      exact h'

theorem insertAll_evicts {c : SessionCache} (k : SessionKey) {s0 : Session}
    {ss : List Session} (hb : cacheBounded c = true)
    (hlen : ss.length = c.capacity) (hss : s0 ∉ ss)
    (hc : s0 ∉ allSessions c.entries) :
    s0 ∉ allSessions (insertAll c k (s0 :: ss)).entries := by
  have hq0 : (findQ c.entries k).length ≤ c.capacity := cacheBounded_findQ hb k
  have hfq : findQ (insertAll c k (s0 :: ss)).entries k =
      List.foldl (bounded_push c.capacity) (findQ c.entries k) (s0 :: ss) :=
    insertAll_findQ c k (s0 :: ss)
  -- the final queue is exactly `ss`
  have hsfx : List.foldl (bounded_push c.capacity) (findQ c.entries k) (s0 :: ss)
      <:+ findQ c.entries k ++ (s0 :: ss) :=
    foldl_bounded_push_suffix _ _ _
  have hsfx2 : ss <:+ findQ c.entries k ++ (s0 :: ss) := by
    have : ss <:+ s0 :: ss := ⟨[s0], rfl⟩
    exact this.trans (List.suffix_append _ _)
  have hlenf : (List.foldl (bounded_push c.capacity) (findQ c.entries k)
      (s0 :: ss)).length = ss.length := by
    rw [foldl_bounded_push_length hq0]
    simp [hlen]
    omega
  have hfinal : List.foldl (bounded_push c.capacity) (findQ c.entries k)
      (s0 :: ss) = ss := suffix_eq_of_length hsfx hsfx2 hlenf
  intro hmem
  rcases mem_insertAll hmem with h | h
  · rw [hfq, hfinal] at h
    exact hss h
  · exact hc (mem_allExcept h)

/-! ### Claims about the session cache (C5, C6) -/

/-- C5, counterexample: the claim quantifies over every cache state, but when
the key already holds a session (here session 5 at capacity 8), the take
after `insert k 7` yields 7 as claimed, while the second take returns the
older session 5 rather than none. -/
theorem c5_counterexample :
    ((SessionCache.mk 8 [(⟨"example.com", 443⟩, [5])]).insert
        ⟨"example.com", 443⟩ 7 |>.get ⟨"example.com", 443⟩).1 = some 7
    ∧ (((SessionCache.mk 8 [(⟨"example.com", 443⟩, [5])]).insert
        ⟨"example.com", 443⟩ 7 |>.get ⟨"example.com", 443⟩).2.get
        ⟨"example.com", 443⟩).1 = some 5
    ∧ ¬ (((SessionCache.mk 8 [(⟨"example.com", 443⟩, [5])]).insert
        ⟨"example.com", 443⟩ 7 |>.get ⟨"example.com", 443⟩).2.get
        ⟨"example.com", 443⟩).1 = none := by
  refine ⟨rfl, rfl, by decide⟩

/-- C5, amended: with a positive capacity, `take(k)` immediately after
`insert(k, s)` yields `s` for every cache state; and when the key held no
sessions before the insert, a second `take(k)` immediately after yields
none. -/
theorem c5_amended_insert_take (c : SessionCache) (k : SessionKey) (s : Session)
    (hcap : 1 ≤ c.capacity) :
    ((c.insert k s).get k).1 = some s ∧
      (findQ c.entries k = [] → ((((c.insert k s).get k).2).get k).1 = none) := by
  have hlast : (bounded_push c.capacity (findQ c.entries k) s).getLast? = some s := by
    unfold bounded_push
    by_cases hc' : c.capacity < (findQ c.entries k ++ [s]).length
    · rw [if_pos hc']
      rcases hq : findQ c.entries k with _ | ⟨x, q'⟩
      · rw [hq] at hc'
        simp at hc'
        omega
      · simp [List.getLast?_concat]
    · rw [if_neg hc']
      exact List.getLast?_concat _
  constructor
  · simp only [SessionCache.get, SessionCache.insert, findQ_updateQ_self, hlast]
  · intro hq
    have hqb : bounded_push c.capacity (findQ c.entries k) s = [s] := by
      rw [hq]
      unfold bounded_push
      rw [if_neg (by simp; omega)]
      simp
    simp only [SessionCache.get, SessionCache.insert, findQ_updateQ_self, hlast, hqb]
    simp [findQ_updateQ_self]

/-- C5, witness for the amended theorem at a concrete input. -/
theorem c5_amended_insert_take_witness :
    1 ≤ (SessionCache.mk 8 []).capacity ∧
    (((SessionCache.mk 8 []).insert ⟨"example.com", 443⟩ 7).get
        ⟨"example.com", 443⟩).1 = some 7 ∧
      (findQ (SessionCache.mk 8 []).entries ⟨"example.com", 443⟩ = [] →
        (((((SessionCache.mk 8 []).insert ⟨"example.com", 443⟩ 7).get
            ⟨"example.com", 443⟩).2).get ⟨"example.com", 443⟩).1 = none) :=
  ⟨by simp, c5_amended_insert_take (SessionCache.mk 8 []) ⟨"example.com", 443⟩ 7 (by simp)⟩

/-- C6: the default session cache capacity is 8 (`HttpsLayerSettings`
`Default` impl); every reachable cache state keeps every per-key queue within
capacity; and after `capacity + 1` inserts at one key, the first inserted
session (fresh to the cache and distinct from the later ones) is evicted and
is never returned by any later sequence of operations that does not
re-insert it. -/
theorem c6_cache_bound_and_eviction :
    HttpsLayerSettings.default.session_cache_capacity = 8
    ∧ (∀ (c : SessionCache) (ops : List CacheOp), cacheBounded c = true →
        cacheBounded (runOps c ops).1 = true)
    ∧ (∀ (c : SessionCache) (k : SessionKey) (s0 : Session) (ss : List Session),
        cacheBounded c = true → ss.length = c.capacity → s0 ∉ ss →
        s0 ∉ allSessions c.entries →
        s0 ∉ allSessions (insertAll c k (s0 :: ss)).entries
        ∧ ∀ ops : List CacheOp, (∀ k' s', CacheOp.insert k' s' ∈ ops → s' ≠ s0) →
            ∀ r ∈ (runOps (insertAll c k (s0 :: ss)) ops).2, r ≠ some s0) := by
  refine ⟨rfl, fun c ops hb => cacheBounded_runOps hb ops, ?_⟩
  intro c k s0 ss hb hlen hss hc
  have hev := insertAll_evicts k hb hlen hss hc
  exact ⟨hev, fun ops hops => (runOps_no_session hev ops hops).1⟩

/-! ### Claims about the profile data (C7, C9) -/

/-- C7: the Chrome117 profile's `Http2FrameSettings` carry header table size
65536, push disabled, initial stream window 6291456, max header list size
262144, and initial connection window 15728640 (whose WINDOW_UPDATE delta
over the protocol default 65535 is 15663105); the SafariIos17_4_1 profile
carries initial stream window 2097152. -/
theorem c7_http2_settings_values (P O S : Type)
    (settings : ImpersonateSettings P O S) :
    (chrome_v117_http2 settings).header_table_size = some 65536
    ∧ (chrome_v117_http2 settings).enable_push = some false
    ∧ (chrome_v117_http2 settings).initial_stream_window_size = some 6291456
    ∧ (chrome_v117_http2 settings).max_header_list_size = some 262144
    ∧ (chrome_v117_http2 settings).initial_connection_window_size = some 15728640
    ∧ ((chrome_v117_http2 settings).initial_connection_window_size.getD 0) - 65535
        = 15663105
    ∧ (safari_ios_17_4_1_http2 settings).initial_stream_window_size = some 2097152 := by
  refine ⟨rfl, rfl, rfl, rfl, rfl, ?_, rfl⟩
  show (Option.getD (some 15728640) 0) - 65535 = 15663105
  norm_num

/-- C7, witness at a concrete instantiation. -/
theorem c7_http2_settings_values_witness :
    (chrome_v117_http2 (ImpersonateSettings.mk (P := Unit) (O := Unit) (S := Unit)
        none none none)).header_table_size = some 65536
    ∧ (chrome_v117_http2 (ImpersonateSettings.mk (P := Unit) (O := Unit) (S := Unit)
        none none none)).enable_push = some false
    ∧ (chrome_v117_http2 (ImpersonateSettings.mk (P := Unit) (O := Unit) (S := Unit)
        none none none)).initial_stream_window_size = some 6291456
    ∧ (chrome_v117_http2 (ImpersonateSettings.mk (P := Unit) (O := Unit) (S := Unit)
        none none none)).max_header_list_size = some 262144
    ∧ (chrome_v117_http2 (ImpersonateSettings.mk (P := Unit) (O := Unit) (S := Unit)
        none none none)).initial_connection_window_size = some 15728640
    ∧ ((chrome_v117_http2 (ImpersonateSettings.mk (P := Unit) (O := Unit) (S := Unit)
        none none none)).initial_connection_window_size.getD 0) - 65535 = 15663105
    ∧ (safari_ios_17_4_1_http2 (ImpersonateSettings.mk (P := Unit) (O := Unit)
        (S := Unit) none none none)).initial_stream_window_size = some 2097152 :=
  c7_http2_settings_values Unit Unit Unit (ImpersonateSettings.mk none none none)

/-- C9: the Chrome117 default header initializer performs exactly the twelve
listed inserts in the fixed source order, independent of the prior contents
of the map; on an empty map the result is exactly that list, and the names
in order are as the claim states. -/
theorem c9_chrome117_header_order :
    (∀ m : List (String × String), chrome_v117_header_initializer m =
      chrome_v117_default_headers.foldl (fun h p => header_insert h p.1 p.2) m)
    ∧ chrome_v117_header_initializer [] = chrome_v117_default_headers
    ∧ chrome_v117_default_headers.map Prod.fst =
      ["sec-ch-ua", "sec-ch-ua-mobile", "sec-ch-ua-platform",
       "upgrade-insecure-requests", "user-agent", "accept", "sec-fetch-site",
       "sec-fetch-mode", "sec-fetch-user", "sec-fetch-dest",
       "accept-encoding", "accept-language"] :=
  ⟨fun m => rfl, by decide, by decide⟩

/-! ### Claims about host normalization (C2) -/

/-- C2: for every host string, the connector's bracket stripping strips the
surrounding square brackets exactly when the host begins with `[`, ends with
`]`, and the interior parses as an IPv6 address; in particular `[::1]`
becomes `::1`, and a bracketed host whose interior is not a valid IPv6
address is passed through unchanged. -/
theorem c2_ipv6_bracket_stripping :
    (∀ host : String, normalize_host host = spec_normalize_host host)
    ∧ normalize_host "[::1]" = "::1"
    ∧ normalize_host "[example.com]" = "[example.com]" := by
  refine ⟨?_, by decide, by decide⟩
  intro host
  obtain ⟨cs⟩ := host
  cases cs with
  | nil => rfl
  | cons c rest =>
    cases rest with
    | nil =>
      show ({ data := [c] } : String) = spec_normalize_host { data := [c] }
      simp only [spec_normalize_host, List.head?_cons, List.getLast?_singleton,
        List.drop]
      split
      · rename_i hcond
        exfalso
        obtain ⟨ha, hb, -⟩ := hcond
        rw [Option.some_inj] at ha hb
        subst ha
        exact absurd hb (by decide)
      · rfl
    | cons r rs =>
      have hne : (r :: rs) ≠ [] := by simp
      have hl : (r :: rs).getLast? = some ((r :: rs).getLast hne) :=
        List.getLast?_eq_getLast _ hne
      simp only [normalize_host, spec_normalize_host, List.head?_cons,
        List.getLast?_cons_cons, hl, List.drop]
      simp only [Option.some.injEq]

/-! ### Claims about the per-connection TLS setup (C3, C10) -/

/-- C3, counterexample: on a setup with both callbacks registered and a cache
hit, the setup succeeds while the trace violates the claimed order — the
configuration callback runs before the ex-data attach and the cache
consultation, not after them. -/
theorem c3_counterexample :
    (ConnectorInner.setup_ssl
        ⟨true, some true, some true,
          some ⟨8, [(⟨"example.com", 443⟩, [5])]⟩, true, true⟩
        ⟨some "https", some "example.com", none⟩ "example.com").2.1 = .ok ()
    ∧ all_before is_key_cache_event is_callback_event
        (ConnectorInner.setup_ssl
          ⟨true, some true, some true,
            some ⟨8, [(⟨"example.com", 443⟩, [5])]⟩, true, true⟩
          ⟨some "https", some "example.com", none⟩ "example.com").1 = false :=
  ⟨rfl, rfl⟩

/-- C3, amended: in per-connection TLS setup the caller's configuration
callback is invoked first; then the session cache is consulted (setting a
cached session if found); then the SessionKey is attached as ex-data; and the
raw-handle callback is invoked last, after all of the above. -/
theorem c3_amended_callback_order (inner : ConnectorInner) (uri : Uri)
    (host : String) : ordered_trace (inner.setup_ssl uri host).1 = true := by
  obtain ⟨cok, cb, scb, cach, sok, iok⟩ := inner
  simp only [ConnectorInner.setup_ssl]
  rcases cach with _ | cache
  · cases cok <;> cases sok <;> cases iok <;>
      rcases cb with _ | _ | _ <;> rcases scb with _ | _ | _ <;> rfl
  · rcases hget : cache.get (session_key_for uri host) with ⟨r, cache2⟩
    simp only [hget]
    rcases r with _ | sess <;>
      cases cok <;> cases sok <;> cases iok <;>
      rcases cb with _ | _ | _ <;> rcases scb with _ | _ | _ <;> rfl

/-- C10: the SessionKey carried by the cache-lookup and ex-data events is
built from the handed-in hostname and the URI port with default 443, so URIs
with explicit port 443 and with no port produce the same key. -/
theorem c10_session_key_port_default (inner : ConnectorInner) (uri : Uri)
    (host : String) :
    (∀ k b, ConnEvent.cacheGet k b ∈ (inner.setup_ssl uri host).1 →
        k = ⟨host, uri.port.getD 443⟩)
    ∧ (∀ k, ConnEvent.setExData k ∈ (inner.setup_ssl uri host).1 →
        k = ⟨host, uri.port.getD 443⟩)
    ∧ (∀ u u' : Uri, u.port = some 443 → u'.port = none →
        session_key_for u host = session_key_for u' host) := by
  refine ⟨?_, ?_, ?_⟩
  case refine_3 =>
    intro u u' hu hu'
    simp [session_key_for, hu, hu']
  all_goals
    obtain ⟨cok, cb, scb, cach, sok, iok⟩ := inner
    simp only [ConnectorInner.setup_ssl]
    rcases cach with _ | cache
    · cases cok <;> cases sok <;> cases iok <;>
        rcases cb with _ | _ | _ <;> rcases scb with _ | _ | _ <;>
        (intros; simp_all [session_key_for])
    · rcases hget : cache.get (session_key_for uri host) with ⟨r, cache2⟩
      simp only [hget]
      rcases r with _ | sess <;>
        cases cok <;> cases sok <;> cases iok <;>
        rcases cb with _ | _ | _ <;> rcases scb with _ | _ | _ <;>
        (intros; simp_all [session_key_for])

/-- Any per-connection setup failure carries one of the five setup error
tags; in particular it is never the connector's missing-host error. -/
theorem setup_ssl_error_strings (inner : ConnectorInner) (uri : Uri)
    (host : String) (e : String)
    (h : (inner.setup_ssl uri host).2.1 = .error e) :
    e = "configure failed" ∨ e = "callback failed" ∨ e = "set_session failed"
      ∨ e = "into_ssl failed" ∨ e = "ssl callback failed" := by
  obtain ⟨cok, cb, scb, cach, sok, iok⟩ := inner
  simp only [ConnectorInner.setup_ssl] at h
  rcases cach with _ | cache
  · cases cok <;> cases sok <;> cases iok <;>
      rcases cb with _ | _ | _ <;> rcases scb with _ | _ | _ <;> simp_all
  · rcases hget : cache.get (session_key_for uri host) with ⟨r, cache2⟩
    simp only [hget] at h
    rcases r with _ | sess <;>
      cases cok <;> cases sok <;> cases iok <;>
      rcases cb with _ | _ | _ <;> rcases scb with _ | _ | _ <;> simp_all

/-! ### Claims about the connector service (C1, C4, C8) -/

/-- C1: when the URI scheme is neither https nor wss (or absent), the call
returns the plaintext `Http` variant wrapping exactly the transport's stream
and its trace holds no TLS action at all; when the scheme is https or wss,
the call never returns the plaintext variant, and whenever the host resolves
and the per-connection setup succeeds the TLS handshake is attempted. -/
theorem c1_scheme_decides_tls {T : Type} (inner : ConnectorInner) (uri : Uri)
    (conn : T) (handshake_ok : Bool) (alpn : Option String) :
    (is_tls_scheme uri = false →
      connector_call inner uri (.ok conn) handshake_ok alpn
        = ([.transportCall], .ok (.Http conn)))
    ∧ (is_tls_scheme uri = true →
        ∀ c : T, (connector_call inner uri (.ok conn) handshake_ok alpn).2
          ≠ .ok (.Http c))
    ∧ (is_tls_scheme uri = true → ∀ host0, uri.host = some host0 →
        (inner.setup_ssl uri (normalize_host host0)).2.1 = .ok () →
          ConnEvent.handshake ∈
            (connector_call inner uri (.ok conn) handshake_ok alpn).1) := by
  refine ⟨?_, ?_, ?_⟩
  · intro h
    simp [connector_call, h]
  · intro h c
    simp only [connector_call]
    rw [if_neg (by simp [h])]
    cases hh : uri.host with
    | none => simp
    | some host0 =>
      rcases hs : inner.setup_ssl uri (normalize_host host0) with ⟨t, r, cc⟩
      simp only [hs]
      rcases r with e | u
      · simp
      · cases handshake_ok <;> simp
  · intro h host0 hh hok
    simp only [connector_call]
    rw [if_neg (by simp [h]), hh]
    rcases hs : inner.setup_ssl uri (normalize_host host0) with ⟨t, r, cc⟩
    rw [hs] at hok
    simp only at hok
    simp only [hs]
    rcases r with e | u
    · exact absurd hok (by simp)
    · cases handshake_ok <;> simp

/-- C4, counterexample: for the https URI with no host the plaintext
transport is invoked (the trace holds the transport call) before the call
fails with the missing-host error, and for the https URI with a present but
empty host the call does not fail with the missing-host error at all — it
proceeds to TLS setup and succeeds. -/
theorem c4_counterexample :
    (connector_call (T := Unit) ⟨true, none, none, none, true, true⟩
        ⟨some "https", none, none⟩ (.ok ()) true none).1 = [ConnEvent.transportCall]
    ∧ (connector_call (T := Unit) ⟨true, none, none, none, true, true⟩
        ⟨some "https", none, none⟩ (.ok ()) true none).2
        = .error "URI missing host"
    ∧ (connector_call (T := Unit) ⟨true, none, none, none, true, true⟩
        ⟨some "https", some "", none⟩ (.ok ()) true none).2
        = .ok (.Https ⟨(), none⟩) :=
  ⟨rfl, rfl, rfl⟩

/-- C4, amended: for every TLS-scheme URI whose host is missing, the call
fails with the missing-host UriError after the plaintext transport service
has been invoked and its connection awaited, and before any TLS setup (the
trace is exactly the transport call); a TLS-scheme URI with a present but
empty host does not fail with the missing-host error. -/
theorem c4_amended_missing_host {T : Type} (inner : ConnectorInner) (uri : Uri)
    (conn : T) (handshake_ok : Bool) (alpn : Option String) :
    (is_tls_scheme uri = true → uri.host = none →
      connector_call inner uri (.ok conn) handshake_ok alpn
        = ([.transportCall], .error "URI missing host"))
    ∧ (is_tls_scheme uri = true → uri.host = some "" →
        (connector_call inner uri (.ok conn) handshake_ok alpn).2
          ≠ .error "URI missing host") := by
  constructor
  · intro h hh
    simp only [connector_call]
    rw [if_neg (by simp [h]), hh]
  · intro h hh
    simp only [connector_call]
    rw [if_neg (by simp [h]), hh]
    rcases hs : inner.setup_ssl uri (normalize_host "") with ⟨t, r, cc⟩
    simp only [hs]
    rcases r with e | u
    · intro habs
      simp only at habs
      have he : e = "URI missing host" := by simpa using habs
      have hd := setup_ssl_error_strings inner uri (normalize_host "") e
        (by rw [hs])
      rw [he] at hd
      rcases hd with h1 | h1 | h1 | h1 | h1 <;> exact absurd h1 (by decide)
    · cases handshake_ok <;> simp

/-- C8: a TLS stream's connection metadata reports HTTP/2 negotiated exactly
when the TLS engine selected ALPN `h2`, provided the underlying transport's
own metadata does not already claim h2 (true of every plaintext transport);
plaintext streams report the underlying metadata unchanged. -/
theorem c8_alpn_h2_metadata {T : Type} (conn_meta : T → Connected)
    (s : SslStream T) (hbase : (conn_meta s.inner).h2 = false) :
    (((MaybeHttpsStream.Https s).connected conn_meta).h2 = true
      ↔ s.alpn = some "h2")
    ∧ (∀ t : T, (MaybeHttpsStream.Http t).connected conn_meta = conn_meta t) := by
  constructor
  · by_cases h : s.alpn = some "h2" <;>
      simp [MaybeHttpsStream.connected, Connected.negotiated_h2, h, hbase]
  · intro t
    rfl

/-- C8, witness at a concrete transport and stream. -/
theorem c8_alpn_h2_metadata_witness :
    ((fun _ : Unit => Connected.mk false 0)
        ((SslStream.mk () (some "h2")).inner)).h2 = false
    ∧ ((((MaybeHttpsStream.Https (SslStream.mk () (some "h2"))).connected
          (fun _ : Unit => Connected.mk false 0)).h2 = true
        ↔ (SslStream.mk () (some "h2")).alpn = some "h2")
      ∧ (∀ t : Unit, (MaybeHttpsStream.Http t).connected
          (fun _ : Unit => Connected.mk false 0)
            = (fun _ : Unit => Connected.mk false 0) t)) :=
  ⟨rfl, c8_alpn_h2_metadata (fun _ : Unit => Connected.mk false 0)
    (SslStream.mk () (some "h2")) rfl⟩
